import Mathlib

/-!
Verification of the layer SDK's execution-plan construction subsystem and
config store against its specification.

The execution-planner definitions (`_build_graph`, `_find_cycles`,
`check_asset_dependencies`, `build_execution_plan`) are modelled from the
specification (spec.md sections 3, 4.1-4.4, 6), since the module
`layer/projects/execution_planner.py` itself is not part of the provided
sources (only its unit tests are).  The config-store definitions are
shallow embeddings of `layer/config/config.py`.
-/

namespace Layer

/-- Asset kind, from `layer.contracts.asset.AssetType`.  Only the two kinds
exercised by the planner are modelled. -/
inductive AssetType where
  | dataset
  | model
deriving DecidableEq, Repr

/-- The path segment an asset type contributes to an asset path string
(for example `datasets/ds1`, `models/m1`). -/
def AssetType.segment : AssetType → String
  | .dataset => "datasets"
  | .model => "models"

/-- An asset path (`layer.contracts.asset.AssetPath`): identifies an asset by
account/project/type/name; account and project may be absent while the path
is only partially qualified. -/
structure AssetPath where
  account_name : Option String
  project_name : Option String
  asset_type : AssetType
  asset_name : String
deriving DecidableEq, Repr

/-- Canonical slash-delimited string form of an asset path
(`account/project/type/name`, omitting absent qualifiers). -/
def AssetPath.pathString (p : AssetPath) : String :=
  (match p.account_name with | some a => a ++ "/" | none => "") ++
  (match p.project_name with | some n => n ++ "/" | none => "") ++
  p.asset_type.segment ++ "/" ++ p.asset_name

/-- One user-declared buildable unit (`layer.contracts.definitions.FunctionDefinition`).
The callable, args/kwargs, fabric, packaging metadata and version id are opaque
payload never inspected by the planner (spec section 9); they are modelled by
the single `payload` field. -/
structure FunctionDefinition where
  account_name : String
  project_name : String
  asset_type : AssetType
  asset_name : String
  asset_dependencies : List AssetPath
  payload : Nat
deriving DecidableEq, Repr

/-- Graph node key of a definition, relative to the project:
`"{asset_type_segment}/{asset_name}"` (spec section 4.2). -/
def nodeKey (d : FunctionDefinition) : String :=
  d.asset_type.segment ++ "/" ++ d.asset_name

/-- Graph node key a dependency path refers to, relative to the project. -/
def depKey (p : AssetPath) : String :=
  p.asset_type.segment ++ "/" ++ p.asset_name

/-- Fully qualified path string of a definition's own asset
(`account/project/type/name`). -/
def fullPath (d : FunctionDefinition) : String :=
  d.account_name ++ "/" ++ d.project_name ++ "/" ++ nodeKey d

/-- Modelled from the spec: the dependency validator (section 4.1) classifies a
dependency as internal exactly when its account and project match the owning
definition's account and project. -/
def isInternal (d : FunctionDefinition) (p : AssetPath) : Bool :=
  p.account_name == some d.account_name && p.project_name == some d.project_name

/-- Node keys of a definition's internal dependencies: only these become graph
edges (spec sections 4.1, 4.2). -/
def internalDepKeys (d : FunctionDefinition) : List String :=
  (d.asset_dependencies.filter (isInternal d)).map depKey

/-- Modelled from the spec: the dependency graph (spec section 3) — a mapping
from node key to the definition it represents (kept as an insertion-ordered
association list) together with the edge set from dependent key to dependency
key. -/
structure DependencyGraph where
  nodes : List (String × FunctionDefinition)
  edges : List (String × String)
deriving DecidableEq, Repr

/-- Modelled from the spec: `_build_graph` (spec section 4.2, missing module
`layer/projects/execution_planner.py`).  Every definition becomes exactly one
node keyed by `"{segment}/{name}"`, in input insertion order; the edges of a
node are the keys of its internal dependencies only. -/
def _build_graph (ds : List FunctionDefinition) : DependencyGraph :=
  { nodes := ds.map fun d => (nodeKey d, d)
  , edges := ds.flatMap fun d => (internalDepKeys d).map fun k => (nodeKey d, k) }

/-- The node keys of a graph, in insertion order. -/
def nodeKeys (g : DependencyGraph) : List String :=
  g.nodes.map Prod.fst

/-- Edge relation of a graph: dependent key to dependency key. -/
def Edge (g : DependencyGraph) (u v : String) : Prop :=
  (u, v) ∈ g.edges

instance (g : DependencyGraph) (u v : String) : Decidable (Edge g u v) :=
  inferInstanceAs (Decidable ((u, v) ∈ g.edges))

/-- Boolean edge test. -/
def edgeB (g : DependencyGraph) (u v : String) : Bool :=
  decide (Edge g u v)

/-- A closed walk along dependency edges: a nonempty list of keys where each
entry has an edge to the cyclically next entry. -/
def ClosedWalk (g : DependencyGraph) (c : List String) : Prop :=
  c ≠ [] ∧ ∀ j, j < c.length → Edge g (c.getD j "") (c.getD ((j + 1) % c.length) "")

/-- Executable form of `ClosedWalk`. -/
def closedWalkB (g : DependencyGraph) (c : List String) : Bool :=
  !c.isEmpty &&
    (List.range c.length).all fun j =>
      edgeB g (c.getD j "") (c.getD ((j + 1) % c.length) "")

instance (g : DependencyGraph) (c : List String) : Decidable (ClosedWalk g c) :=
  decidable_of_iff (closedWalkB g c = true)
    (by simp [closedWalkB, ClosedWalk, edgeB, List.all_eq_true, List.mem_range,
      List.isEmpty_iff])

/-- A simple cycle: a closed walk visiting no node twice. -/
def SimpleCycle (g : DependencyGraph) (c : List String) : Prop :=
  ClosedWalk g c ∧ c.Nodup

instance (g : DependencyGraph) (c : List String) : Decidable (SimpleCycle g c) :=
  inferInstanceAs (Decidable (_ ∧ _))

/-- All ways of inserting an element at some position of a list. -/
def insertEverywhere (a : String) : List String → List (List String)
  | [] => [[a]]
  | b :: t => (a :: b :: t) :: (insertEverywhere a t).map (b :: ·)

/-- All permutations of a list (structurally recursive, so that the cycle
enumeration is computable by the kernel). -/
def perms : List String → List (List String)
  | [] => [[]]
  | a :: t => (perms t).flatMap (insertEverywhere a)

/-- Position of a key in the graph's insertion order (used to anchor the
reported rotation of each cycle). -/
def keyIdx (g : DependencyGraph) (k : String) : Nat :=
  (nodeKeys g).indexOf k

/-- Whether the head of a candidate cycle is a node of minimal insertion index
among the cycle's members: the anchoring that makes each simple cycle be
reported by exactly one of its rotations. -/
def minimalHeadB (g : DependencyGraph) (c : List String) : Bool :=
  !c.isEmpty && c.all fun w => decide (keyIdx g (c.getD 0 "") ≤ keyIdx g w)

/-- Modelled from the spec: `_find_cycles` (spec section 4.3, missing module
`layer/projects/execution_planner.py`).  Returns the set of all simple cycles
of the graph, each reported exactly once via its rotation anchored at the
member of minimal insertion index — the enumeration contract fixed by the
spec's Scenario E regression count. -/
def _find_cycles (g : DependencyGraph) : List (List String) :=
  ((nodeKeys g).sublists.flatMap perms).filter fun c =>
    closedWalkB g c && decide c.Nodup && minimalHeadB g c

/-- Models `layer.exceptions.exceptions.ProjectCircularDependenciesException`:
the rejection carrying the full enumerated cycle-path list. -/
inductive ProjectException where
  | circularDependencies (paths : List (List String))
deriving DecidableEq, Repr

/-- Modelled from the spec: `check_asset_dependencies` (spec sections 4.3, 6,
missing module `layer/projects/execution_planner.py`).  Builds the graph,
enumerates cycles, and rejects with the full cycle list when any exist. -/
def check_asset_dependencies (ds : List FunctionDefinition) :
    Except ProjectException Unit :=
  let cycles := _find_cycles (_build_graph ds)
  if cycles.isEmpty then Except.ok ()
  else Except.error (ProjectException.circularDependencies cycles)

/-- One function-execution entry of the wire plan (spec section 6): the asset's
qualified name and its declared dependency path strings. -/
structure FunctionExecution where
  asset_name : String
  dependency : List String
deriving DecidableEq, Repr

/-- One plan operation: either a single sequential function execution or a
parallel batch (spec sections 3, 6). -/
inductive Operation where
  | sequential (function_execution : FunctionExecution)
  | parallel (function_execution : List FunctionExecution)
deriving DecidableEq, Repr

/-- The wire execution plan: an ordered sequence of operations. -/
structure ExecutionPlan where
  operations : List Operation
deriving DecidableEq, Repr

/-- The function-execution entry compiled for one definition. -/
def toFunctionExecution (d : FunctionDefinition) : FunctionExecution :=
  { asset_name := fullPath d
  , dependency := d.asset_dependencies.map AssetPath.pathString }

/-- A node is ready when every internal dependency key has already been
emitted (spec section 4.4 step 2). -/
def isReady (done : List String) (nd : String × FunctionDefinition) : Bool :=
  (internalDepKeys nd.2).all fun k => decide (k ∈ done)

/-- Modelled from the spec: the layered topological sort of section 4.4 —
repeatedly extract the ready layer (in insertion order), remove it, and
continue; the fuel bounds the defensive termination check of step 6. -/
def buildLayers : Nat → List (String × FunctionDefinition) → List String →
    List (List (String × FunctionDefinition))
  | 0, _, _ => []
  | fuel + 1, remaining, done =>
    let layer := remaining.filter (isReady done)
    if layer.isEmpty then []
    else
      layer :: buildLayers fuel
        (remaining.filter fun nd => !decide (nd.1 ∈ layer.map Prod.fst))
        (done ++ layer.map Prod.fst)

/-- Emit one ready layer as an operation: a singleton layer becomes a
sequential operation, a larger layer one parallel operation with an entry per
node (spec section 4.4 steps 3-4). -/
def mkOperation (layer : List (String × FunctionDefinition)) : Operation :=
  match layer with
  | [nd] => Operation.sequential (toFunctionExecution nd.2)
  | _ => Operation.parallel (layer.map fun nd => toFunctionExecution nd.2)

/-- Modelled from the spec: `build_execution_plan` (spec section 4.4, missing
module `layer/projects/execution_planner.py`). -/
def build_execution_plan (ds : List FunctionDefinition) : ExecutionPlan :=
  let g := _build_graph ds
  { operations := (buildLayers g.nodes.length g.nodes []).map mkOperation }

/-- The asset names carried by one operation. -/
def opNames : Operation → List String
  | .sequential fe => [fe.asset_name]
  | .parallel fes => fes.map FunctionExecution.asset_name

/-- Index of the first operation in a list that carries the given asset
name. -/
def idxOfName (n : String) : List Operation → Option Nat
  | [] => none
  | op :: rest =>
    if n ∈ opNames op then some 0 else (idxOfName n rest).map (· + 1)

/-- Index of the first operation of a plan that carries the given asset
name. -/
def opIndexOf (plan : ExecutionPlan) (n : String) : Option Nat :=
  idxOfName n plan.operations

/-- The function-execution entries of one operation. -/
def opEntries : Operation → List FunctionExecution
  | .sequential fe => [fe]
  | .parallel fes => fes

/-- All function-execution entries of a plan, across all operations in
order. -/
def planExecutions (plan : ExecutionPlan) : List FunctionExecution :=
  plan.operations.flatMap opEntries

/-- Replace only the opaque payload of a definition, leaving its declared
identity and dependencies unchanged. -/
def withPayload (f : FunctionDefinition → Nat) (d : FunctionDefinition) :
    FunctionDefinition :=
  { d with payload := f d }

/-- Lift a payload replacement to graph-node pairs. -/
def withPayloadPair (f : FunctionDefinition → Nat)
    (nd : String × FunctionDefinition) : String × FunctionDefinition :=
  (nd.1, withPayload f nd.2)

/-! Concrete fixtures mirroring `src/test/unit/projects/test_execution_planner.py`
(`_create_mock_asset` with the `test-acc/test` project). -/

/-- Fixture builder mirroring the test helper `_create_mock_asset`. -/
def mockAsset (t : AssetType) (n : String) (deps : List AssetPath)
    (proj : String := "test") (acc : String := "test-acc") : FunctionDefinition :=
  { account_name := acc, project_name := proj, asset_type := t, asset_name := n
  , asset_dependencies := deps, payload := 0 }

/-- Fixture builder for a fully qualified dependency path. -/
def mockDep (t : AssetType) (n : String)
    (proj : String := "test") (acc : String := "test-acc") : AssetPath :=
  { account_name := some acc, project_name := some proj
  , asset_type := t, asset_name := n }

/-- Scenario E fixture: node `m` of the 4-node cycle graph. -/
def fixM : FunctionDefinition :=
  mockAsset .model "m" [mockDep .dataset "a", mockDep .dataset "e"]

/-- Scenario E fixture: node `a`. -/
def fixA : FunctionDefinition :=
  mockAsset .dataset "a" [mockDep .model "m", mockDep .dataset "e"]

/-- Scenario E fixture: node `e`. -/
def fixE : FunctionDefinition :=
  mockAsset .dataset "e" [mockDep .dataset "s"]

/-- Scenario E fixture: node `s`. -/
def fixS : FunctionDefinition :=
  mockAsset .dataset "s" [mockDep .dataset "a", mockDep .model "m"]

/-- Scenario B fixture: five definitions with no dependencies. -/
def fixParallel : List FunctionDefinition :=
  [ mockAsset .dataset "ds1" [], mockAsset .dataset "ds2" []
  , mockAsset .dataset "ds3" [], mockAsset .model "m1" []
  , mockAsset .model "m2" [] ]

/-- Scenario A fixture: the linear chain ds1 ← ds2 ← ds3 ← m1 ← m2. -/
def fixLinear : List FunctionDefinition :=
  [ mockAsset .dataset "ds1" []
  , mockAsset .dataset "ds2" [mockDep .dataset "ds1"]
  , mockAsset .dataset "ds3" [mockDep .dataset "ds2"]
  , mockAsset .model "m1" [mockDep .dataset "ds3"]
  , mockAsset .model "m2" [mockDep .model "m1"] ]

/-- Cross-project fixture: `m1` in project `test` depending on a dataset of
project `another-project-x`, which hypothetically depends back on `m1` —
both dependencies are external, so no internal edge exists in either
direction. -/
def fixExternal : List FunctionDefinition :=
  [ mockAsset .model "m1" [mockDep .dataset "ds1" "another-project-x"]
  , mockAsset .dataset "ds1" [mockDep .model "m1" "test"] "another-project-x" ]

/-- Two-node internal cycle fixture (Scenario D). -/
def fixCycle : List FunctionDefinition :=
  [ mockAsset .dataset "ds1" [mockDep .model "m1"]
  , mockAsset .model "m1" [mockDep .dataset "ds1"] ]

/-! Shallow embedding of the config subsystem, `src/layer/config/config.py`. -/

/-- A JSON value as stored in the config file.  The serializers in
`ConfigRecord` write only strings, booleans, lists and objects; numbers and
null may still appear in a hand-edited file. -/
inductive JValue where
  | null
  | bool (b : Bool)
  | num (n : Int)
  | str (s : String)
  | arr (elems : List JValue)
  | obj (fields : List (String × JValue))

/-- Python truthiness of a JSON value (`bool(x)` / `if record:`). -/
def JValue.truthy : JValue → Bool
  | .null => false
  | .bool b => b
  | .num n => n != 0
  | .str s => !(s == "")
  | .arr es => !es.isEmpty
  | .obj fs => !fs.isEmpty

/-- Key lookup in a JSON object (`record[name]` / `name in record`); `none`
both for a missing key and for a non-object record, either of which makes the
Python code raise an exception that `ConfigStore.load` converts to
`InvalidConfigurationError`. -/
def JValue.get? : JValue → String → Option JValue
  | .obj fields, k => fields.lookup k
  | _, _ => none

/-- A value where the Python code applies `URL(...)` or stores a string: the
wire format written by `ConfigRecord` always holds a string here. -/
def JValue.asStr : JValue → Option String
  | .str s => some s
  | _ => none

/-- A value stored into a boolean field; the wire format written by
`ConfigRecord` always holds a boolean here. -/
def JValue.asBool : JValue → Option Bool
  | .bool b => some b
  | _ => none

/-- `get_config` (config.py:162): a required configuration key; a missing key
raises `ConfigError`, which `ConfigStore.load` converts to
`InvalidConfigurationError`. -/
def get_config (name : String) (record : JValue) : Option JValue :=
  record.get? name

/-- `get_config_or_default` (config.py:170). -/
def get_config_or_default (name : String) (defaultVal : JValue) (record : JValue) :
    JValue :=
  (record.get? name).getD defaultVal

/-- URLs are modelled as their string form; `URL.with_path` (used only to
compute the default logout url) is modelled as concatenation, the exact value
being irrelevant to the load error partition. -/
def urlWithPath (u p : String) : String :=
  u ++ p

/-- `Credentials` (config.py:121): the token pair. -/
structure Credentials where
  access_token : String
  refresh_token : String
deriving DecidableEq, Repr

/-- `Credentials.create_empty` (config.py:130). -/
def Credentials.create_empty : Credentials :=
  { access_token := "", refresh_token := "" }

/-- `S3Config` (config.py:29). -/
structure S3Config where
  endpoint_url : Option String
deriving DecidableEq, Repr

/-- `S3Config.create_default` (config.py:33). -/
def S3Config.create_default : S3Config :=
  { endpoint_url := none }

/-- `ClientConfig` (config.py:50).  The source default for `logs_file_path` is
a session-timestamped path; the concrete value is opaque to every claim, so
the default is modelled as the empty string. -/
structure ClientConfig where
  grpc_gateway_address : String := ""
  access_token : String := ""
  grpc_do_verify_ssl : Bool := true
  logs_file_path : String := ""
  s3 : S3Config := S3Config.create_default
deriving DecidableEq, Repr

/-- `AuthConfig` (config.py:78), URLs in string form. -/
structure AuthConfig where
  auth_url : String
  token_url : String
  logout_url : String
  client_id : String
  audience : String
  headless_callback_url : String
  callback_urls : List String
  success_redirect_url : String
  failure_redirect_url : String
deriving DecidableEq, Repr

/-- `AuthConfig.create_disabled` (config.py:93). -/
def AuthConfig.create_disabled : AuthConfig :=
  { auth_url := "", token_url := "", logout_url := "", client_id := ""
  , audience := "", headless_callback_url := "", callback_urls := []
  , success_redirect_url := "", failure_redirect_url := "" }

/-- `Config` (config.py:174): the frozen top-level configuration record. -/
structure Config where
  url : String
  client : ClientConfig
  auth : AuthConfig
  credentials : Credentials := Credentials.create_empty
  is_guest : Bool := false
deriving DecidableEq, Repr

/-- `Config.with_credentials` (config.py:182): replace the credentials and
propagate the new access token into the client config, leaving everything
else unchanged. -/
def Config.with_credentials (c : Config) (creds : Credentials) : Config :=
  { c with
    credentials := creds
    client := { c.client with access_token := creds.access_token } }

/-- `ConfigRecord.to_credentials` (config.py:240): a falsy record yields the
empty credentials, otherwise both token keys are required. -/
def ConfigRecord.to_credentials (record : JValue) : Option Credentials :=
  if record.truthy then do
    let tok ← (record.get? "access_token").bind JValue.asStr
    let refresh ← (record.get? "refresh_token").bind JValue.asStr
    some { access_token := tok, refresh_token := refresh }
  else
    some Credentials.create_empty

/-- `ConfigRecord.to_auth` (config.py:209): a falsy record yields the disabled
auth config; otherwise `auth_url`, `token_url`, `client_id`, `audience`,
`headless_callback_url`, `callback_urls` and `success_redirect_url` are
required, while `logout_url` and `failure_redirect_url` have computed
defaults used when the stored value is missing or falsy. -/
def ConfigRecord.to_auth (record : JValue) : Option AuthConfig :=
  if !record.truthy then some AuthConfig.create_disabled
  else do
    let auth_url ← (record.get? "auth_url").bind JValue.asStr
    let logout_url ←
      match record.get? "logout_url" with
      | some v => if v.truthy then v.asStr else some (urlWithPath auth_url "/v2/logout")
      | none => some (urlWithPath auth_url "/v2/logout")
    let headless ← (record.get? "headless_callback_url").bind JValue.asStr
    let failure_redirect ←
      match record.get? "failure_redirect_url" with
      | some v => if v.truthy then v.asStr else some headless
      | none => some headless
    let token_url ← (record.get? "token_url").bind JValue.asStr
    let client_id ← (record.get? "client_id").bind JValue.asStr
    let audience ← (record.get? "audience").bind JValue.asStr
    let callback_urls ←
      match record.get? "callback_urls" with
      | some (.arr es) => es.mapM JValue.asStr
      | _ => none
    let success_redirect ← (record.get? "success_redirect_url").bind JValue.asStr
    some { auth_url := auth_url, token_url := token_url, logout_url := logout_url
         , client_id := client_id, audience := audience
         , headless_callback_url := headless, callback_urls := callback_urls
         , success_redirect_url := success_redirect
         , failure_redirect_url := failure_redirect }

/-- `ConfigRecord.to_client` (config.py:262): `grpc_gateway_address` is
required (`get_config`), ssl verification defaults to true, the s3 endpoint is
optional, and the access token is injected from the credentials. -/
def ConfigRecord.to_client (record : JValue) (access_token : String) :
    Option ClientConfig := do
  let gateway ← (get_config "grpc_gateway_address" record).bind JValue.asStr
  let ssl ←
    match record.get? "grpc_do_verify_ssl" with
    | some v => v.asBool
    | none => some true
  let s3 ←
    match record.get? "s3_endpoint_url" with
    | some v => (v.asStr).map fun s => S3Config.mk (some s)
    | none => some S3Config.create_default
  some { grpc_gateway_address := gateway, access_token := access_token
       , grpc_do_verify_ssl := ssl, logs_file_path := ""
       , s3 := s3 }

/-- `ConfigRecord.to_config` (config.py:288): `url`, `credentials`, `auth` and
`client` are required keys; `is_guest` defaults to false; any failure while
converting yields no config at all (the exception becomes
`InvalidConfigurationError` in `ConfigStore.load`). -/
def ConfigRecord.to_config (record : JValue) : Option Config := do
  let guest := (get_config_or_default "is_guest" (JValue.bool false) record).truthy
  let url ← (get_config "url" record).bind JValue.asStr
  let credsRecord ← get_config "credentials" record
  let creds ← ConfigRecord.to_credentials credsRecord
  let authRecord ← get_config "auth" record
  let auth ← ConfigRecord.to_auth authRecord
  let clientRecord ← get_config "client" record
  let client ← ConfigRecord.to_client clientRecord creds.access_token
  some { url := url, client := client, auth := auth, credentials := creds
       , is_guest := guest }

/-- The errors `ConfigStore.load` can raise (config.py:317). -/
inductive ConfigLoadError where
  | missingConfiguration (path : String)
  | invalidConfiguration (path : String)
deriving DecidableEq, Repr

/-- Outcome of opening, reading and JSON-parsing the config file: an I/O error
while opening or reading, a non-I/O parse failure inside `json.load`, or a
successfully parsed JSON record. -/
inductive ReadOutcome where
  | ioError
  | malformed
  | parsed (record : JValue)

/-- `ConfigStore.load` (config.py:317): an `IOError` anywhere in the guarded
block becomes `MissingConfigurationError` with the store's path; any other
failure (malformed JSON, or any exception from `ConfigRecord.to_config`)
becomes `InvalidConfigurationError` with the path; otherwise the fully
converted config is returned. -/
def ConfigStore.load (path : String) (outcome : ReadOutcome) :
    Except ConfigLoadError Config :=
  match outcome with
  | .ioError => Except.error (ConfigLoadError.missingConfiguration path)
  | .malformed => Except.error (ConfigLoadError.invalidConfiguration path)
  | .parsed record =>
    match ConfigRecord.to_config record with
    | some config => Except.ok config
    | none => Except.error (ConfigLoadError.invalidConfiguration path)

/-! Theorems -/

theorem closedWalkB_iff (g : DependencyGraph) (c : List String) :
    closedWalkB g c = true ↔ ClosedWalk g c := by
  simp [closedWalkB, ClosedWalk, edgeB, List.all_eq_true, List.mem_range,
    List.isEmpty_iff]

theorem mem_insertEverywhere (a : String) (l₁ l₂ : List String) :
    l₁ ++ a :: l₂ ∈ insertEverywhere a (l₁ ++ l₂) := by
  induction l₁ with
  | nil =>
    show a :: l₂ ∈ insertEverywhere a l₂
    cases l₂ <;> simp [insertEverywhere]
  | cons b t ih =>
    exact List.mem_cons_of_mem _ (List.mem_map_of_mem (b :: ·) ih)

theorem mem_perms_of_perm {l s : List String} (h : l.Perm s) : l ∈ perms s := by
  induction s generalizing l with
  | nil => simp [perms, h.eq_nil]
  | cons a t ih =>
    have ha : a ∈ l := h.mem_iff.mpr (List.mem_cons_self a t)
    obtain ⟨l₁, l₂, rfl⟩ := List.append_of_mem ha
    have hperm : (l₁ ++ l₂).Perm t :=
      (List.perm_cons a).mp (List.perm_middle.symm.trans h)
    exact List.mem_flatMap.mpr ⟨l₁ ++ l₂, ih hperm, mem_insertEverywhere a l₁ l₂⟩

/-- C10: `Config.with_credentials` returns a config whose credentials equal the
given credentials and whose client access token is kept in sync with them,
while the url, auth, guest flag and every other client field are unchanged;
the original config itself is unmodified, the model being pure. -/
theorem with_credentials_updates_tokens_only (c : Config) (creds : Credentials) :
    (c.with_credentials creds).credentials = creds ∧
    (c.with_credentials creds).client.access_token = creds.access_token ∧
    (c.with_credentials creds).url = c.url ∧
    (c.with_credentials creds).auth = c.auth ∧
    (c.with_credentials creds).is_guest = c.is_guest ∧
    (c.with_credentials creds).client.grpc_gateway_address =
      c.client.grpc_gateway_address ∧
    (c.with_credentials creds).client.grpc_do_verify_ssl =
      c.client.grpc_do_verify_ssl ∧
    (c.with_credentials creds).client.logs_file_path = c.client.logs_file_path ∧
    (c.with_credentials creds).client.s3 = c.client.s3 :=
  ⟨rfl, rfl, rfl, rfl, rfl, rfl, rfl, rfl, rfl⟩

/-- C9: `ConfigStore.load` partitions failures into exactly two error classes:
an I/O error while opening or reading the file yields
`MissingConfigurationError` with the path; a JSON parse failure or any failure
converting the record to a `Config` yields `InvalidConfigurationError` with
the path; a successful load always carries a fully converted config, never a
partial one; and no other error shape is possible. -/
theorem configStore_load_error_partition (path : String) (outcome : ReadOutcome) :
    (outcome = ReadOutcome.ioError →
      ConfigStore.load path outcome =
        Except.error (ConfigLoadError.missingConfiguration path)) ∧
    (outcome = ReadOutcome.malformed →
      ConfigStore.load path outcome =
        Except.error (ConfigLoadError.invalidConfiguration path)) ∧
    (∀ record, outcome = ReadOutcome.parsed record →
      ConfigRecord.to_config record = none →
      ConfigStore.load path outcome =
        Except.error (ConfigLoadError.invalidConfiguration path)) ∧
    (∀ config, ConfigStore.load path outcome = Except.ok config →
      ∃ record, outcome = ReadOutcome.parsed record ∧
        ConfigRecord.to_config record = some config) ∧
    (∀ err, ConfigStore.load path outcome = Except.error err →
      err = ConfigLoadError.missingConfiguration path ∨
      err = ConfigLoadError.invalidConfiguration path) := by
  refine ⟨fun h => by subst h; rfl, fun h => by subst h; rfl, ?_, ?_, ?_⟩
  · intro record h hc
    subst h
    simp [ConfigStore.load, hc]
  · intro config h
    cases outcome with
    | ioError => simp [ConfigStore.load] at h
    | malformed => simp [ConfigStore.load] at h
    | parsed record =>
      refine ⟨record, rfl, ?_⟩
      cases hc : ConfigRecord.to_config record with
      | none => simp [ConfigStore.load, hc] at h
      | some cfg =>
        simp [ConfigStore.load, hc] at h
        rw [h]
  · intro err h
    cases outcome with
    | ioError =>
      left
      simp [ConfigStore.load] at h
      exact h.symm
    | malformed =>
      right
      simp [ConfigStore.load] at h
      exact h.symm
    | parsed record =>
      right
      cases hc : ConfigRecord.to_config record with
      | none =>
        simp [ConfigStore.load, hc] at h
        exact h.symm
      | some cfg => simp [ConfigStore.load, hc] at h

/-- Witness for C9 at a concrete path and outcome. -/
theorem configStore_load_error_partition_witness :
    ConfigStore.load "/home/user/.layer/config.json" ReadOutcome.ioError =
      Except.error
        (ConfigLoadError.missingConfiguration "/home/user/.layer/config.json") :=
  (configStore_load_error_partition "/home/user/.layer/config.json"
    ReadOutcome.ioError).1 rfl

/-- C4: on the 4-node graph `m→{a,e}`, `a→{m,e}`, `e→{s}`, `s→{a,m}` of
Scenario E, `_find_cycles` applied to the graph built by `_build_graph`
returns exactly 5 cycle paths. -/
theorem find_cycles_scenario_e :
    (_find_cycles (_build_graph [fixM, fixA, fixE, fixS])).length = 5 := by
  decide

theorem nodeKeys_build (ds : List FunctionDefinition) :
    nodeKeys (_build_graph ds) = ds.map nodeKey := by
  simp only [nodeKeys, _build_graph, List.map_map]
  rfl

theorem edge_of_node_dep {ds : List FunctionDefinition} {d : FunctionDefinition}
    (hd : d ∈ ds) {k : String} (hk : k ∈ internalDepKeys d) :
    Edge (_build_graph ds) (nodeKey d) k := by
  simp only [Edge, _build_graph, List.mem_flatMap, List.mem_map]
  exact ⟨d, hd, k, hk, rfl⟩

theorem edge_source_mem {ds : List FunctionDefinition} {u v : String}
    (h : Edge (_build_graph ds) u v) : u ∈ nodeKeys (_build_graph ds) := by
  simp only [Edge, _build_graph, List.mem_flatMap, List.mem_map] at h
  obtain ⟨d, hd, k, hk, heq⟩ := h
  cases heq
  rw [nodeKeys_build]
  exact List.mem_map_of_mem nodeKey hd

theorem node_mem_build {ds : List FunctionDefinition}
    {nd : String × FunctionDefinition} (h : nd ∈ (_build_graph ds).nodes) :
    ∃ d ∈ ds, nd = (nodeKey d, d) := by
  simp only [_build_graph, List.mem_map] at h
  obtain ⟨d, hd, rfl⟩ := h
  exact ⟨d, hd, rfl⟩

theorem mem_getD_of_mem {l : List String} {x : String} (hx : x ∈ l) :
    ∃ j, j < l.length ∧ l.getD j "" = x := by
  obtain ⟨⟨j, hj⟩, rfl⟩ := List.mem_iff_get.mp hx
  exact ⟨j, hj, by rw [List.getD_eq_getElem _ _ hj, List.get_eq_getElem]⟩

theorem getD_rotate (c : List String) (i j : Nat) (hj : j < c.length) :
    (c.rotate i).getD j "" = c.getD ((j + i) % c.length) "" := by
  have hj' : j < (c.rotate i).length := by rw [List.length_rotate]; exact hj
  have hmod : (j + i) % c.length < c.length :=
    Nat.mod_lt _ (Nat.lt_of_le_of_lt (Nat.zero_le _) hj)
  rw [List.getD_eq_getElem _ _ hj', List.getD_eq_getElem _ _ hmod]
  exact List.getElem_rotate c i j hj'

theorem closedWalk_rotate {g : DependencyGraph} {c : List String}
    (h : ClosedWalk g c) (i : Nat) : ClosedWalk g (c.rotate i) := by
  obtain ⟨hne, hstep⟩ := h
  have hlen : 0 < c.length := List.length_pos.mpr hne
  constructor
  · intro hnil
    apply hne
    have hzero := congrArg List.length hnil
    rw [List.length_rotate] at hzero
    exact List.length_eq_zero.mp hzero
  · intro j hj
    rw [List.length_rotate] at hj ⊢
    rw [getD_rotate c i j hj, getD_rotate c i ((j + 1) % c.length)
      (Nat.mod_lt _ hlen)]
    have e1 : ((j + 1) % c.length + i) % c.length =
        ((j + i) % c.length + 1) % c.length := by
      rw [Nat.mod_add_mod, Nat.mod_add_mod]
      have harith : j + 1 + i = j + i + 1 := by omega
      rw [harith]
    rw [e1]
    exact hstep ((j + i) % c.length) (Nat.mod_lt _ hlen)

theorem exists_min_position (f : String → Nat) :
    ∀ c : List String, c ≠ [] →
      ∃ j, j < c.length ∧ ∀ x ∈ c, f (c.getD j "") ≤ f x := by
  intro c
  induction c with
  | nil => intro h; exact absurd rfl h
  | cons a t ih =>
    intro _
    by_cases ht : t = []
    · subst ht
      refine ⟨0, by simp, ?_⟩
      intro x hx
      rcases List.mem_singleton.mp hx with rfl
      exact Nat.le_refl _
    · obtain ⟨j, hj, hmin⟩ := ih ht
      by_cases hcmp : f a ≤ f (t.getD j "")
      · refine ⟨0, by simp, ?_⟩
        intro x hx
        rcases List.mem_cons.mp hx with rfl | hx
        · exact Nat.le_refl _
        · exact Nat.le_trans hcmp (hmin x hx)
      · refine ⟨j + 1, by simpa using Nat.succ_lt_succ hj, ?_⟩
        intro x hx
        have hstep : (a :: t).getD (j + 1) "" = t.getD j "" := rfl
        rw [hstep]
        rcases List.mem_cons.mp hx with rfl | hx
        · exact Nat.le_of_lt (Nat.lt_of_not_le hcmp)
        · exact hmin x hx

theorem exists_min_rotation (g : DependencyGraph) (c : List String) (hne : c ≠ []) :
    ∃ i, minimalHeadB g (c.rotate i) = true := by
  obtain ⟨j, hj, hmin⟩ := exists_min_position (keyIdx g) c hne
  have hlen : 0 < c.length := Nat.lt_of_le_of_lt (Nat.zero_le _) hj
  refine ⟨j, ?_⟩
  have hhead : (c.rotate j).getD 0 "" = c.getD j "" := by
    rw [getD_rotate c j 0 hlen]
    have hzero : (0 + j) % c.length = j := by
      rw [Nat.zero_add, Nat.mod_eq_of_lt hj]
    rw [hzero]
  have hne' : (c.rotate j).isEmpty = false := by
    cases hrot : c.rotate j with
    | nil =>
      have := congrArg List.length hrot
      rw [List.length_rotate] at this
      simp at this
      exact absurd this hne
    | cons x xs => rfl
  simp only [minimalHeadB, Bool.and_eq_true, List.all_eq_true, hne',
    Bool.not_false, true_and]
  intro x hx
  rw [hhead]
  exact decide_eq_true (hmin x (List.mem_rotate.mp hx))

theorem mem_find_cycles {g : DependencyGraph} {c : List String}
    (hw : ClosedWalk g c) (hnd : c.Nodup)
    (hsub : ∀ x ∈ c, x ∈ nodeKeys g) (hmin : minimalHeadB g c = true) :
    c ∈ _find_cycles g := by
  obtain ⟨s, hs, hsl⟩ := hnd.subperm hsub
  refine List.mem_filter.mpr ⟨?_, ?_⟩
  · exact List.mem_flatMap.mpr ⟨s, List.mem_sublists.mpr hsl, mem_perms_of_perm hs.symm⟩
  · simp only [Bool.and_eq_true]
    exact ⟨⟨(closedWalkB_iff g c).mpr hw, decide_eq_true hnd⟩, hmin⟩

theorem closedWalk_sources {ds : List FunctionDefinition} {c : List String}
    (h : ClosedWalk (_build_graph ds) c) :
    ∀ x ∈ c, x ∈ nodeKeys (_build_graph ds) := by
  intro x hx
  obtain ⟨j, hj, hget⟩ := mem_getD_of_mem hx
  have hstep := h.2 j hj
  rw [hget] at hstep
  exact edge_source_mem hstep

theorem simpleCycle_reported {ds : List FunctionDefinition} {c : List String}
    (h : SimpleCycle (_build_graph ds) c) :
    ∃ i, c.rotate i ∈ _find_cycles (_build_graph ds) := by
  obtain ⟨hw, hnd⟩ := h
  obtain ⟨i, hmin⟩ := exists_min_rotation (_build_graph ds) c hw.1
  refine ⟨i, mem_find_cycles (closedWalk_rotate hw i) ?_ ?_ hmin⟩
  · exact ((List.rotate_perm c i).nodup_iff).mpr hnd
  · intro x hx
    exact closedWalk_sources hw x (List.mem_rotate.mp hx)

theorem no_simpleCycle_of_find_cycles_nil {ds : List FunctionDefinition}
    (hacy : _find_cycles (_build_graph ds) = []) {c : List String}
    (h : SimpleCycle (_build_graph ds) c) : False := by
  obtain ⟨i, hi⟩ := simpleCycle_reported h
  rw [hacy] at hi
  exact (List.not_mem_nil _) hi

theorem getD_last_concat (q : List String) (a : String) :
    (q ++ [a]).getD q.length "" = a := by
  induction q with
  | nil => rfl
  | cons b t ih => simp only [List.cons_append, List.length_cons, List.getD_cons_succ]; exact ih

theorem closedWalk_of_chain (g : DependencyGraph) (x : String) (l : List String)
    (hchain : List.Chain' (Edge g) (x :: l))
    (hclose : Edge g ((x :: l).getD ((x :: l).length - 1) "") x) :
    ClosedWalk g (x :: l) := by
  refine ⟨List.cons_ne_nil x l, ?_⟩
  intro j hj
  by_cases hlast : j + 1 = (x :: l).length
  · have hmod : (j + 1) % (x :: l).length = 0 := by rw [hlast, Nat.mod_self]
    rw [hmod]
    have hj_eq : j = (x :: l).length - 1 := by omega
    rw [hj_eq]
    exact hclose
  · have hj1 : j + 1 < (x :: l).length := Nat.lt_of_le_of_ne hj hlast
    have hmod : (j + 1) % (x :: l).length = j + 1 := Nat.mod_eq_of_lt hj1
    rw [hmod]
    have hchain' := List.chain'_iff_get.mp hchain j (by
      simp only [List.length_cons] at hj1 ⊢
      omega)
    rw [List.getD_eq_getElem _ _ hj, List.getD_eq_getElem _ _ hj1]
    simpa [List.get_eq_getElem] using hchain'

theorem cycle_of_back_edge (g : DependencyGraph) (u v : String) (p : List String)
    (hnd : (u :: p).Nodup)
    (hchain : List.Chain' (fun a b => Edge g b a) (u :: p))
    (hmem : v ∈ u :: p) (hedge : Edge g u v) :
    ∃ c, SimpleCycle g c := by
  obtain ⟨pfx, sfx, hsplit⟩ := List.append_of_mem hmem
  cases pfx with
  | nil =>
    have huv : u = v := by
      have := hsplit
      simp only [List.nil_append, List.cons.injEq] at this
      exact this.1
    refine ⟨[v], ⟨List.cons_ne_nil v [], ?_⟩, List.nodup_singleton v⟩
    intro j hj
    have hj0 : j = 0 := by
      simp only [List.length_singleton] at hj
      omega
    subst hj0
    simpa using huv ▸ hedge
  | cons a pfx' =>
    have hau : a = u ∧ p = pfx' ++ v :: sfx := by
      have := hsplit
      simp only [List.cons_append, List.cons.injEq] at this
      exact ⟨this.1.symm, this.2⟩
    obtain ⟨rfl, rfl⟩ := hau
    have hchain₂ : List.Chain' (fun x y => Edge g y x) ((a :: pfx') ++ [v]) := by
      have hre : a :: (pfx' ++ v :: sfx) = ((a :: pfx') ++ [v]) ++ sfx := by
        simp
      rw [hre] at hchain
      exact hchain.left_of_append
    have hrev : ((a :: pfx') ++ [v]).reverse = v :: (pfx'.reverse ++ [a]) := by
      simp
    have hchainc : List.Chain' (Edge g) (v :: (pfx'.reverse ++ [a])) := by
      rw [← hrev]
      exact List.chain'_reverse.mpr hchain₂
    have hlastc : (v :: (pfx'.reverse ++ [a])).getD
        ((v :: (pfx'.reverse ++ [a])).length - 1) "" = a := by
      have hlen1 : (v :: (pfx'.reverse ++ [a])).length - 1 =
          (v :: pfx'.reverse).length := by simp
      rw [hlen1]
      exact getD_last_concat (v :: pfx'.reverse) a
    refine ⟨v :: (pfx'.reverse ++ [a]), ?_, ?_⟩
    · exact closedWalk_of_chain g v (pfx'.reverse ++ [a]) hchainc
        (by rw [hlastc]; exact hedge)
    · rw [← hrev, List.nodup_reverse]
      have hsubl : List.Sublist ((a :: pfx') ++ [v]) ((a :: pfx') ++ v :: sfx) :=
        (List.Sublist.cons₂ v (List.nil_sublist sfx)).append_left (a :: pfx')
      exact List.Nodup.sublist hsubl hnd

theorem grow_cycle (g : DependencyGraph) (S : List String)
    (hstep : ∀ u ∈ S, ∃ v ∈ S, Edge g u v) :
    ∀ (n : Nat) (u : String) (p : List String),
      (u :: p).Nodup → (∀ x ∈ u :: p, x ∈ S) →
      List.Chain' (fun a b => Edge g b a) (u :: p) →
      S.length ≤ (u :: p).length + n →
      ∃ c, SimpleCycle g c := by
  intro n
  induction n with
  | zero =>
    intro u p hnd hsub hchain hlen
    obtain ⟨v, hvS, hedge⟩ := hstep u (hsub u (List.mem_cons_self u p))
    by_cases hv : v ∈ u :: p
    · exact cycle_of_back_edge g u v p hnd hchain hv hedge
    · exfalso
      have hnd' : (v :: u :: p).Nodup := List.nodup_cons.mpr ⟨hv, hnd⟩
      have hsub' : (v :: u :: p) ⊆ S := by
        intro x hx
        rcases List.mem_cons.mp hx with rfl | hx
        · exact hvS
        · exact hsub x hx
      have hle := (hnd'.subperm hsub').length_le
      simp only [List.length_cons] at hle hlen
      omega
  | succ m ih =>
    intro u p hnd hsub hchain hlen
    obtain ⟨v, hvS, hedge⟩ := hstep u (hsub u (List.mem_cons_self u p))
    by_cases hv : v ∈ u :: p
    · exact cycle_of_back_edge g u v p hnd hchain hv hedge
    · refine ih v (u :: p) (List.nodup_cons.mpr ⟨hv, hnd⟩) ?_ ?_ ?_
      · intro x hx
        rcases List.mem_cons.mp hx with rfl | hx
        · exact hvS
        · exact hsub x hx
      · exact List.chain'_cons.mpr ⟨hedge, hchain⟩
      · simp only [List.length_cons] at hlen ⊢
        omega

theorem pair_eq_of_key_eq {l : List (String × FunctionDefinition)}
    (hnd : (l.map Prod.fst).Nodup) {x y : String × FunctionDefinition}
    (hx : x ∈ l) (hy : y ∈ l) (hkey : x.1 = y.1) : x = y :=
  List.inj_on_of_nodup_map hnd hx hy hkey

theorem isReady_iff {done : List String} {nd : String × FunctionDefinition} :
    isReady done nd = true ↔ ∀ k ∈ internalDepKeys nd.2, k ∈ done := by
  simp [isReady, List.all_eq_true]

theorem ready_layer_ne_nil {ds : List FunctionDefinition}
    (remaining : List (String × FunctionDefinition)) (done : List String)
    (hmem : ∀ nd ∈ remaining, nd ∈ (_build_graph ds).nodes)
    (hclosed : ∀ nd ∈ remaining, ∀ k ∈ internalDepKeys nd.2,
      k ∈ done ∨ k ∈ remaining.map Prod.fst)
    (hacy : _find_cycles (_build_graph ds) = [])
    (hne : remaining ≠ []) :
    remaining.filter (isReady done) ≠ [] := by
  intro hnil
  have hstep : ∀ u ∈ remaining.map Prod.fst, ∃ v ∈ remaining.map Prod.fst,
      Edge (_build_graph ds) u v := by
    intro u hu
    obtain ⟨nd, hnd, rfl⟩ := List.mem_map.mp hu
    have hnotready := List.filter_eq_nil_iff.mp hnil nd hnd
    have hnotall : ¬ ∀ k ∈ internalDepKeys nd.2, k ∈ done :=
      fun h => hnotready (isReady_iff.mpr h)
    push_neg at hnotall
    obtain ⟨k, hk, hkdone⟩ := hnotall
    have hkS : k ∈ remaining.map Prod.fst := by
      rcases hclosed nd hnd k hk with h | h
      · exact absurd h hkdone
      · exact h
    refine ⟨k, hkS, ?_⟩
    obtain ⟨d, hd, hpair⟩ := node_mem_build (hmem nd hnd)
    have h1 : nd.1 = nodeKey d := by rw [hpair]
    have h2 : nd.2 = d := by rw [hpair]
    rw [h1]
    exact edge_of_node_dep hd (h2 ▸ hk)
  obtain ⟨nd₀, hnd₀⟩ := List.exists_mem_of_ne_nil remaining hne
  have hu₀ : nd₀.1 ∈ remaining.map Prod.fst := List.mem_map_of_mem Prod.fst hnd₀
  obtain ⟨c, hc⟩ := grow_cycle (_build_graph ds) (remaining.map Prod.fst) hstep
    (remaining.map Prod.fst).length nd₀.1 []
    (List.nodup_singleton _)
    (by intro x hx; rcases List.mem_singleton.mp hx with rfl; exact hu₀)
    (List.chain'_singleton _) (by simp)
  exact no_simpleCycle_of_find_cycles_nil hacy hc

theorem removal_filter_eq (remaining : List (String × FunctionDefinition))
    (done : List String) (hnd : (remaining.map Prod.fst).Nodup) :
    (remaining.filter fun nd =>
      !decide (nd.1 ∈ (remaining.filter (isReady done)).map Prod.fst)) =
    remaining.filter fun nd => !(isReady done nd) := by
  apply List.filter_congr
  intro nd hmem
  have hiff : (nd.1 ∈ (remaining.filter (isReady done)).map Prod.fst) ↔
      isReady done nd = true := by
    constructor
    · intro h
      obtain ⟨m, hm, hkey⟩ := List.mem_map.mp h
      have hm' := List.mem_filter.mp hm
      have heq := pair_eq_of_key_eq hnd hm'.1 hmem hkey
      rw [← heq]
      exact hm'.2
    · intro h
      exact List.mem_map_of_mem Prod.fst (List.mem_filter.mpr ⟨hmem, h⟩)
  by_cases h : nd.1 ∈ (remaining.filter (isReady done)).map Prod.fst
  · simp [h, hiff.mp h]
  · have hfalse : isReady done nd ≠ true := fun ht => h (hiff.mpr ht)
    simp [h, Bool.eq_false_iff.mpr hfalse]

theorem buildLayers_flatten_perm (ds : List FunctionDefinition)
    (hacy : _find_cycles (_build_graph ds) = []) :
    ∀ (fuel : Nat) (remaining : List (String × FunctionDefinition))
      (done : List String),
      remaining.length ≤ fuel →
      (∀ nd ∈ remaining, nd ∈ (_build_graph ds).nodes) →
      (remaining.map Prod.fst).Nodup →
      (∀ nd ∈ remaining, ∀ k ∈ internalDepKeys nd.2,
        k ∈ done ∨ k ∈ remaining.map Prod.fst) →
      ((buildLayers fuel remaining done).flatten).Perm remaining := by
  intro fuel
  induction fuel with
  | zero =>
    intro remaining done hlen _ _ _
    have hrem : remaining = [] := List.length_eq_zero.mp (Nat.le_zero.mp hlen)
    subst hrem
    simp [buildLayers]
  | succ n ih =>
    intro remaining done hlen hmem hnd hclosed
    by_cases hne : remaining = []
    · subst hne
      simp [buildLayers]
    · have hlayer_ne : remaining.filter (isReady done) ≠ [] :=
        ready_layer_ne_nil remaining done hmem hclosed hacy hne
      have hie : (remaining.filter (isReady done)).isEmpty = false := by
        cases hfc : remaining.filter (isReady done) with
        | nil => exact absurd hfc hlayer_ne
        | cons a t => rfl
      simp only [buildLayers, hie, Bool.false_eq_true, if_false]
      rw [removal_filter_eq remaining done hnd, List.flatten_cons]
      have hlensplit :=
        (List.filter_append_perm (isReady done) remaining).length_eq
      rw [List.length_append] at hlensplit
      have hlpos : 0 < (remaining.filter (isReady done)).length :=
        List.length_pos.mpr hlayer_ne
      have hperm2 := ih (remaining.filter fun nd => !(isReady done nd))
        (done ++ (remaining.filter (isReady done)).map Prod.fst)
        (by omega)
        (fun nd hnd' => hmem nd (List.mem_of_mem_filter hnd'))
        (List.Nodup.sublist (List.Sublist.map Prod.fst
          (List.filter_sublist remaining)) hnd)
        ?_
      · exact (List.Perm.append_left _ hperm2).trans
          (List.filter_append_perm (isReady done) remaining)
      · intro nd hnd' k hk
        have hndrem := List.mem_of_mem_filter hnd'
        rcases hclosed nd hndrem k hk with h | h
        · exact Or.inl (List.mem_append_left _ h)
        · obtain ⟨m, hm, rfl⟩ := List.mem_map.mp h
          cases hr : isReady done m with
          | true =>
            exact Or.inl (List.mem_append_right _
              (List.mem_map_of_mem _ (List.mem_filter.mpr ⟨hm, hr⟩)))
          | false =>
            exact Or.inr (List.mem_map_of_mem _
              (List.mem_filter.mpr ⟨hm, by rw [hr]; rfl⟩))

theorem buildLayers_sound :
    ∀ (fuel : Nat) (remaining : List (String × FunctionDefinition))
      (done : List String) (L₁ L₂ : List (List (String × FunctionDefinition)))
      (layer : List (String × FunctionDefinition)),
      buildLayers fuel remaining done = L₁ ++ layer :: L₂ →
      ∀ nd ∈ layer, ∀ k ∈ internalDepKeys nd.2,
        k ∈ done ∨ k ∈ (L₁.flatten).map Prod.fst := by
  intro fuel
  induction fuel with
  | zero =>
    intro remaining done L₁ L₂ layer h
    rw [buildLayers] at h
    cases L₁ <;> simp at h
  | succ n ih =>
    intro remaining done L₁ L₂ layer h
    simp only [buildLayers] at h
    by_cases hie : (remaining.filter (isReady done)).isEmpty = true
    · rw [if_pos hie] at h
      cases L₁ <;> simp at h
    · rw [if_neg hie] at h
      cases L₁ with
      | nil =>
        simp only [List.nil_append] at h
        injection h with h1 _
        intro nd hnd k hk
        left
        have hready : isReady done nd = true :=
          (List.mem_filter.mp (h1 ▸ hnd)).2
        exact isReady_iff.mp hready k hk
      | cons A L₁' =>
        simp only [List.cons_append] at h
        injection h with h1 h2
        intro nd hnd k hk
        rcases ih _ _ L₁' L₂ layer h2 nd hnd k hk with hdone' | hL₁'
        · rcases List.mem_append.mp hdone' with hdn | hlay
          · exact Or.inl hdn
          · refine Or.inr ?_
            rw [List.flatten_cons, List.map_append]
            exact List.mem_append_left _ (by rw [← h1]; exact hlay)
        · refine Or.inr ?_
          rw [List.flatten_cons, List.map_append]
          exact List.mem_append_right _ hL₁'

/-- C2: whenever the internal dependency graph of the input contains a cycle,
`check_asset_dependencies` raises the circular-dependency error
(`ProjectCircularDependenciesException`), and the raised error carries the full
enumerated cycle list, covering every distinct simple cycle of the graph (each
via the rotation it is reported under), not only the first one. -/
theorem check_asset_dependencies_reports_all_cycles (ds : List FunctionDefinition)
    (hcyc : ∃ c, SimpleCycle (_build_graph ds) c) :
    check_asset_dependencies ds =
      Except.error (ProjectException.circularDependencies
        (_find_cycles (_build_graph ds))) ∧
    _find_cycles (_build_graph ds) ≠ [] ∧
    ∀ c, SimpleCycle (_build_graph ds) c →
      ∃ i, c.rotate i ∈ _find_cycles (_build_graph ds) := by
  obtain ⟨c₀, h₀⟩ := hcyc
  obtain ⟨i₀, hi₀⟩ := simpleCycle_reported h₀
  have hne : _find_cycles (_build_graph ds) ≠ [] := by
    intro h
    rw [h] at hi₀
    exact (List.not_mem_nil _) hi₀
  refine ⟨?_, hne, fun c hc => simpleCycle_reported hc⟩
  have hie : (_find_cycles (_build_graph ds)).isEmpty = false := by
    cases hfc : _find_cycles (_build_graph ds) with
    | nil => exact absurd hfc hne
    | cons a t => rfl
  simp [check_asset_dependencies, hie]

/-- Witness for C2 at the two-node cycle fixture. -/
theorem check_asset_dependencies_reports_all_cycles_witness :
    check_asset_dependencies fixCycle =
      Except.error (ProjectException.circularDependencies
        (_find_cycles (_build_graph fixCycle))) :=
  (check_asset_dependencies_reports_all_cycles fixCycle
    ⟨["datasets/ds1", "models/m1"], by decide⟩).1

theorem opNames_mkOperation (layer : List (String × FunctionDefinition)) :
    opNames (mkOperation layer) = layer.map fun nd => fullPath nd.2 := by
  match layer with
  | [] => rfl
  | [nd] => rfl
  | a :: b :: t =>
    show ((a :: b :: t).map fun nd => toFunctionExecution nd.2).map
        FunctionExecution.asset_name = _
    rw [List.map_map]
    rfl

theorem opEntries_mkOperation (layer : List (String × FunctionDefinition)) :
    opEntries (mkOperation layer) = layer.map fun nd => toFunctionExecution nd.2 := by
  match layer with
  | [] => rfl
  | [nd] => rfl
  | a :: b :: t => rfl

theorem idxOfName_append_cons (n : String) (L₁ : List Operation) (op : Operation)
    (L₂ : List Operation) (h₁ : ∀ o ∈ L₁, n ∉ opNames o) (hop : n ∈ opNames op) :
    idxOfName n (L₁ ++ op :: L₂) = some L₁.length := by
  induction L₁ with
  | nil => simp [idxOfName, hop]
  | cons A L₁' ih =>
    have hA : n ∉ opNames A := h₁ A (List.mem_cons_self A L₁')
    simp only [List.cons_append, idxOfName, if_neg hA, List.append_eq]
    rw [ih fun o ho => h₁ o (List.mem_cons_of_mem A ho)]
    rfl

theorem planExecutions_layers (layers : List (List (String × FunctionDefinition))) :
    (layers.map mkOperation).flatMap opEntries =
      (layers.flatten).map fun nd => toFunctionExecution nd.2 := by
  induction layers with
  | nil => rfl
  | cons layer rest ih =>
    simp only [List.map_cons, List.flatMap_cons, List.flatten_cons,
      List.map_append, opEntries_mkOperation, ih]

theorem name_absent_in_earlier_layers
    {layers : List (List (String × FunctionDefinition))}
    (hnames : ((layers.flatten).map fun nd => fullPath nd.2).Nodup)
    {Lpre Lpost : List (List (String × FunctionDefinition))}
    {layer : List (String × FunctionDefinition)}
    (hsplit : layers = Lpre ++ layer :: Lpost)
    {nd : String × FunctionDefinition} (hnd : nd ∈ layer) :
    ∀ o ∈ Lpre.map mkOperation, fullPath nd.2 ∉ opNames o := by
  intro o ho hmem
  obtain ⟨layer', hlayer', rfl⟩ := List.mem_map.mp ho
  rw [opNames_mkOperation] at hmem
  obtain ⟨m, hm, hmfull⟩ := List.mem_map.mp hmem
  subst hsplit
  rw [List.flatten_append, List.map_append] at hnames
  have hdisj := List.disjoint_of_nodup_append hnames
  have hleft : fullPath nd.2 ∈ (Lpre.flatten).map fun x => fullPath x.2 := by
    rw [← hmfull]
    exact List.mem_map_of_mem _ (List.mem_flatten.mpr ⟨layer', hlayer', hm⟩)
  have hright : fullPath nd.2 ∈
      ((layer :: Lpost).flatten).map fun x => fullPath x.2 :=
    List.mem_map_of_mem _
      (List.mem_flatten.mpr ⟨layer, List.mem_cons_self layer Lpost, hnd⟩)
  exact hdisj hleft hright

/-- C3: for every acyclic well-formed input, every definition appears in
exactly one operation of the compiled plan — the multiset of function
executions across all sequential and parallel operations is exactly one entry
per input definition — and the total number of function-execution entries
equals the number of input definitions. -/
theorem build_execution_plan_covers_all (ds : List FunctionDefinition)
    (hnd : (ds.map nodeKey).Nodup)
    (hres : ∀ d ∈ ds, ∀ k ∈ internalDepKeys d, k ∈ ds.map nodeKey)
    (hacy : _find_cycles (_build_graph ds) = []) :
    (planExecutions (build_execution_plan ds)).Perm
      (ds.map toFunctionExecution) ∧
    (planExecutions (build_execution_plan ds)).length = ds.length := by
  have hnd0 : ((_build_graph ds).nodes.map Prod.fst).Nodup := by
    rw [show (_build_graph ds).nodes.map Prod.fst = nodeKeys (_build_graph ds)
      from rfl, nodeKeys_build]
    exact hnd
  have hclosed0 : ∀ nd ∈ (_build_graph ds).nodes, ∀ k ∈ internalDepKeys nd.2,
      k ∈ ([] : List String) ∨ k ∈ (_build_graph ds).nodes.map Prod.fst := by
    intro nd hnd' k hk
    right
    obtain ⟨d, hd, rfl⟩ := node_mem_build hnd'
    rw [show (_build_graph ds).nodes.map Prod.fst = nodeKeys (_build_graph ds)
      from rfl, nodeKeys_build]
    exact hres d hd k hk
  have hperm := buildLayers_flatten_perm ds hacy (_build_graph ds).nodes.length
    (_build_graph ds).nodes [] (Nat.le_refl _) (fun _ h => h) hnd0 hclosed0
  have hplan : planExecutions (build_execution_plan ds) =
      ((buildLayers (_build_graph ds).nodes.length
        (_build_graph ds).nodes []).flatten).map
          fun nd => toFunctionExecution nd.2 := by
    simp only [planExecutions, build_execution_plan]
    exact planExecutions_layers _
  have hmapnodes : (_build_graph ds).nodes.map
      (fun nd => toFunctionExecution nd.2) = ds.map toFunctionExecution := by
    simp only [_build_graph, List.map_map]
    rfl
  constructor
  · rw [hplan]
    exact (hperm.map fun nd => toFunctionExecution nd.2).trans
      (by rw [hmapnodes])
  · rw [hplan, List.length_map, hperm.length_eq]
    simp [_build_graph]

/-- Witness for C3 at the five independent definitions of Scenario B. -/
theorem build_execution_plan_covers_all_witness :
    (planExecutions (build_execution_plan fixParallel)).Perm
      (fixParallel.map toFunctionExecution) ∧
    (planExecutions (build_execution_plan fixParallel)).length =
      fixParallel.length :=
  build_execution_plan_covers_all fixParallel (by decide) (by decide) (by decide)

/-- C1: for every acyclic well-formed input, the plan compiled by
`build_execution_plan` lists the nodes in a valid topological order — for
every internal edge from a dependent definition to the definition it depends
on, the operation index of the dependency is strictly smaller than the
operation index of the dependent. -/
theorem build_execution_plan_topological (ds : List FunctionDefinition)
    (hnd : (ds.map nodeKey).Nodup)
    (hfp : (ds.map fullPath).Nodup)
    (hres : ∀ d ∈ ds, ∀ k ∈ internalDepKeys d, k ∈ ds.map nodeKey)
    (hacy : _find_cycles (_build_graph ds) = [])
    (d e : FunctionDefinition) (hd : d ∈ ds) (he : e ∈ ds)
    (p : AssetPath) (hp : p ∈ d.asset_dependencies)
    (hint : isInternal d p = true) (hkey : nodeKey e = depKey p) :
    ∃ i j, opIndexOf (build_execution_plan ds) (fullPath e) = some j ∧
      opIndexOf (build_execution_plan ds) (fullPath d) = some i ∧ j < i := by
  have hnd0 : ((_build_graph ds).nodes.map Prod.fst).Nodup := by
    rw [show (_build_graph ds).nodes.map Prod.fst = nodeKeys (_build_graph ds)
      from rfl, nodeKeys_build]
    exact hnd
  have hclosed0 : ∀ nd ∈ (_build_graph ds).nodes, ∀ k ∈ internalDepKeys nd.2,
      k ∈ ([] : List String) ∨ k ∈ (_build_graph ds).nodes.map Prod.fst := by
    intro nd hnd' k hk
    right
    obtain ⟨d', hd', rfl⟩ := node_mem_build hnd'
    rw [show (_build_graph ds).nodes.map Prod.fst = nodeKeys (_build_graph ds)
      from rfl, nodeKeys_build]
    exact hres d' hd' k hk
  have hperm := buildLayers_flatten_perm ds hacy (_build_graph ds).nodes.length
    (_build_graph ds).nodes [] (Nat.le_refl _) (fun _ h => h) hnd0 hclosed0
  have hmapnodes : (_build_graph ds).nodes.map
      (fun nd => fullPath nd.2) = ds.map fullPath := by
    simp only [_build_graph, List.map_map]
    rfl
  have hnames : (((buildLayers (_build_graph ds).nodes.length
      (_build_graph ds).nodes []).flatten).map fun nd => fullPath nd.2).Nodup := by
    rw [(hperm.map fun nd => fullPath nd.2).nodup_iff, hmapnodes]
    exact hfp
  -- locate the dependent's node
  have hndD_nodes : (nodeKey d, d) ∈ (_build_graph ds).nodes := by
    simp only [_build_graph, List.mem_map]
    exact ⟨d, hd, rfl⟩
  obtain ⟨layerD, hlayerD, hndD⟩ :=
    List.mem_flatten.mp (hperm.mem_iff.mpr hndD_nodes)
  obtain ⟨L₁, L₂, hsplit⟩ := List.append_of_mem hlayerD
  -- the dependency's key lies in an earlier layer
  have hk : depKey p ∈ internalDepKeys d :=
    List.mem_map_of_mem depKey (List.mem_filter.mpr ⟨hp, hint⟩)
  have hsound := buildLayers_sound (_build_graph ds).nodes.length
    (_build_graph ds).nodes [] L₁ L₂ layerD hsplit (nodeKey d, d) hndD
    (depKey p) hk
  rcases hsound with hfalse | hL₁
  · exact absurd hfalse (List.not_mem_nil _)
  obtain ⟨ndE, hndE_flat, hndE_key⟩ := List.mem_map.mp hL₁
  obtain ⟨layerE, hlayerE, hndE⟩ := List.mem_flatten.mp hndE_flat
  obtain ⟨A, B, hsplitL₁⟩ := List.append_of_mem hlayerE
  -- the node carrying the dependency's key is the dependency's node
  have hndE_nodes : ndE ∈ (_build_graph ds).nodes := by
    refine hperm.mem_iff.mp ?_
    rw [hsplit, List.flatten_append]
    exact List.mem_append_left _ hndE_flat
  obtain ⟨d', hd', hpair⟩ := node_mem_build hndE_nodes
  have hd'e : d' = e := by
    refine List.inj_on_of_nodup_map hnd hd' he ?_
    show nodeKey d' = nodeKey e
    have h1 : ndE.1 = nodeKey d' := by rw [hpair]
    rw [← h1, hndE_key, ← hkey]
  have hndE_snd : fullPath ndE.2 = fullPath e := by
    rw [hpair]
    show fullPath d' = fullPath e
    rw [hd'e]
  -- full decomposition of the layer list
  have hsplit2 : buildLayers (_build_graph ds).nodes.length
      (_build_graph ds).nodes [] = A ++ layerE :: (B ++ layerD :: L₂) := by
    rw [hsplit, hsplitL₁]
    simp [List.append_assoc]
  have hops : (build_execution_plan ds).operations =
      (buildLayers (_build_graph ds).nodes.length
        (_build_graph ds).nodes []).map mkOperation := rfl
  -- index of the dependency
  have hidxE : opIndexOf (build_execution_plan ds) (fullPath e) =
      some A.length := by
    show idxOfName (fullPath e) (build_execution_plan ds).operations = _
    rw [hops, hsplit2, List.map_append, List.map_cons]
    rw [← hndE_snd]
    rw [idxOfName_append_cons _ _ _ _
      (name_absent_in_earlier_layers hnames hsplit2 hndE)
      (by rw [opNames_mkOperation]; exact List.mem_map_of_mem _ hndE)]
    rw [List.length_map]
  -- index of the dependent
  have hndD_snd : fullPath ((nodeKey d, d) : String × FunctionDefinition).2 =
      fullPath d := rfl
  have hidxD : opIndexOf (build_execution_plan ds) (fullPath d) =
      some L₁.length := by
    show idxOfName (fullPath d) (build_execution_plan ds).operations = _
    rw [hops, hsplit, List.map_append, List.map_cons]
    rw [← hndD_snd]
    rw [idxOfName_append_cons _ _ _ _
      (name_absent_in_earlier_layers hnames hsplit hndD)
      (by rw [opNames_mkOperation]; exact List.mem_map_of_mem _ hndD)]
    rw [List.length_map]
  refine ⟨L₁.length, A.length, hidxE, hidxD, ?_⟩
  rw [hsplitL₁, List.length_append, List.length_cons]
  omega

/-- Witness for C1 on the linear-chain fixture: the dependency `ds1` of `ds2`
is scheduled strictly earlier. -/
theorem build_execution_plan_topological_witness :
    ∃ i j, opIndexOf (build_execution_plan fixLinear)
        (fullPath (mockAsset .dataset "ds1" [])) = some j ∧
      opIndexOf (build_execution_plan fixLinear)
        (fullPath (mockAsset .dataset "ds2" [mockDep .dataset "ds1"])) = some i ∧
      j < i :=
  build_execution_plan_topological fixLinear (by decide) (by decide) (by decide)
    (by decide) (mockAsset .dataset "ds2" [mockDep .dataset "ds1"])
    (mockAsset .dataset "ds1" []) (by decide) (by decide)
    (mockDep .dataset "ds1") (by decide) (by decide) (by decide)

/-- C5: cross-project dependencies are never represented as graph edges —
every edge of a built graph arises from an internal dependency of some input
definition; a definition all of whose dependencies are external contributes no
internal dependency keys (in-degree 0 internally); and the concrete
cross-project back-and-forth dependency pair raises no circular-dependency
error. -/
theorem external_dependencies_excluded :
    (∀ (ds : List FunctionDefinition) (u v : String),
      (u, v) ∈ (_build_graph ds).edges →
      ∃ d ∈ ds, ∃ p ∈ d.asset_dependencies,
        isInternal d p = true ∧ u = nodeKey d ∧ v = depKey p) ∧
    (∀ d : FunctionDefinition,
      (∀ p ∈ d.asset_dependencies, isInternal d p = false) →
      internalDepKeys d = []) ∧
    check_asset_dependencies fixExternal = Except.ok () := by
  refine ⟨?_, ?_, by rfl⟩
  · intro ds u v h
    simp only [_build_graph, List.mem_flatMap, List.mem_map, internalDepKeys,
      List.mem_filter] at h
    obtain ⟨d, hd, k, ⟨p, ⟨hp, hint⟩, rfl⟩, heq⟩ := h
    cases heq
    exact ⟨d, hd, p, hp, hint, rfl, rfl⟩
  · intro d h
    have hfil : d.asset_dependencies.filter (isInternal d) = [] :=
      List.filter_eq_nil_iff.mpr fun p hp => by simp [h p hp]
    simp [internalDepKeys, hfil]

/-- Witness for C5: an internal edge of the two-node cycle fixture is indeed
explained by an internal dependency. -/
theorem external_dependencies_excluded_witness :
    ∃ d ∈ fixCycle, ∃ p ∈ d.asset_dependencies,
      isInternal d p = true ∧ "datasets/ds1" = nodeKey d ∧ "models/m1" = depKey p :=
  external_dependencies_excluded.1 fixCycle "datasets/ds1" "models/m1" (by decide)

/-- C8: `_build_graph` is invariant under permutation of its input up to node
ordering — a permuted input yields a permuted node list and the same edge
set — and within one graph the node ordering is exactly the insertion order of
the input list. -/
theorem build_graph_respects_permutation (ds₁ ds₂ : List FunctionDefinition)
    (h : ds₁.Perm ds₂) :
    (_build_graph ds₁).nodes.Perm (_build_graph ds₂).nodes ∧
    (∀ e, e ∈ (_build_graph ds₁).edges ↔ e ∈ (_build_graph ds₂).edges) ∧
    (_build_graph ds₁).nodes = ds₁.map fun d => (nodeKey d, d) :=
  ⟨h.map _, fun _ => (h.flatMap_right _).mem_iff, rfl⟩

/-- Witness for C8 on a concrete two-element swap. -/
theorem build_graph_respects_permutation_witness :
    ("datasets/a", "models/m") ∈ (_build_graph [fixM, fixA]).edges ↔
      ("datasets/a", "models/m") ∈ (_build_graph [fixA, fixM]).edges :=
  (build_graph_respects_permutation [fixM, fixA] [fixA, fixM] (by decide)).2.1
    ("datasets/a", "models/m")

theorem buildLayers_forall_ne_nil :
    ∀ (fuel : Nat) (remaining : List (String × FunctionDefinition))
      (done : List String),
      ∀ layer ∈ buildLayers fuel remaining done, layer ≠ [] := by
  intro fuel
  induction fuel with
  | zero =>
    intro remaining done layer h
    simp [buildLayers] at h
  | succ n ih =>
    intro remaining done layer h
    simp only [buildLayers] at h
    by_cases he : (remaining.filter (isReady done)).isEmpty
    · simp [he] at h
    · simp only [he, if_false] at h
      rcases List.mem_cons.mp h with rfl | h
      · intro hnil
        rw [hnil] at he
        simp at he
      · exact ih _ _ _ h

/-- C6: every operation of a compiled plan is either sequential or a parallel
batch of at least two entries (a singleton ready layer is emitted sequential,
never as a size-1 parallel batch); a singleton layer compiles to a sequential
operation and a layer of two or more nodes to a single parallel operation with
one function-execution entry per node; and the five independent definitions of
Scenario B compile to exactly one operation, a parallel batch of five
function executions. -/
theorem plan_operations_shapes :
    (∀ (ds : List FunctionDefinition) (op : Operation),
      op ∈ (build_execution_plan ds).operations →
      (∃ fe, op = Operation.sequential fe) ∨
      (∃ fes, op = Operation.parallel fes ∧ 2 ≤ fes.length)) ∧
    (∀ nd : String × FunctionDefinition,
      mkOperation [nd] = Operation.sequential (toFunctionExecution nd.2)) ∧
    (∀ layer : List (String × FunctionDefinition), 2 ≤ layer.length →
      mkOperation layer =
        Operation.parallel (layer.map fun nd => toFunctionExecution nd.2)) ∧
    build_execution_plan fixParallel =
      { operations := [Operation.parallel
          [ { asset_name := "test-acc/test/datasets/ds1", dependency := [] }
          , { asset_name := "test-acc/test/datasets/ds2", dependency := [] }
          , { asset_name := "test-acc/test/datasets/ds3", dependency := [] }
          , { asset_name := "test-acc/test/models/m1", dependency := [] }
          , { asset_name := "test-acc/test/models/m2", dependency := [] } ]] } := by
  refine ⟨?_, fun nd => rfl, ?_, by decide⟩
  · intro ds op hop
    simp only [build_execution_plan, List.mem_map] at hop
    obtain ⟨layer, hlayer, rfl⟩ := hop
    have hne := buildLayers_forall_ne_nil _ _ _ layer hlayer
    match layer, hne with
    | [nd], _ => exact Or.inl ⟨_, rfl⟩
    | a :: b :: t, _ =>
      refine Or.inr ⟨_, rfl, ?_⟩
      simp [mkOperation]
  · intro layer hlen
    match layer, hlen with
    | a :: b :: t, _ => rfl

/-- Witness for C6: the single operation of the Scenario B plan has one of the
two permitted shapes. -/
theorem plan_operations_shapes_witness :
    (∃ fe, Operation.parallel
        [ { asset_name := "test-acc/test/datasets/ds1", dependency := [] }
        , { asset_name := "test-acc/test/datasets/ds2", dependency := [] }
        , { asset_name := "test-acc/test/datasets/ds3", dependency := [] }
        , { asset_name := "test-acc/test/models/m1", dependency := [] }
        , { asset_name := "test-acc/test/models/m2", dependency := [] } ] =
        Operation.sequential fe) ∨
    (∃ fes, Operation.parallel
        [ { asset_name := "test-acc/test/datasets/ds1", dependency := [] }
        , { asset_name := "test-acc/test/datasets/ds2", dependency := [] }
        , { asset_name := "test-acc/test/datasets/ds3", dependency := [] }
        , { asset_name := "test-acc/test/models/m1", dependency := [] }
        , { asset_name := "test-acc/test/models/m2", dependency := [] } ] =
        Operation.parallel fes ∧ 2 ≤ fes.length) :=
  plan_operations_shapes.1 fixParallel _ (by decide)

theorem filter_payload (f : FunctionDefinition → Nat)
    (p : String × FunctionDefinition → Bool)
    (hp : ∀ nd, p (withPayloadPair f nd) = p nd) :
    ∀ l : List (String × FunctionDefinition),
      (l.map (withPayloadPair f)).filter p = (l.filter p).map (withPayloadPair f) := by
  intro l
  induction l with
  | nil => rfl
  | cons a t ih =>
    simp only [List.map_cons, List.filter_cons, hp a]
    cases p a <;> simp [ih]

theorem keys_payload (f : FunctionDefinition → Nat)
    (l : List (String × FunctionDefinition)) :
    (l.map (withPayloadPair f)).map Prod.fst = l.map Prod.fst := by
  rw [List.map_map]
  rfl

theorem buildLayers_payload (f : FunctionDefinition → Nat) :
    ∀ (fuel : Nat) (remaining : List (String × FunctionDefinition))
      (done : List String),
      buildLayers fuel (remaining.map (withPayloadPair f)) done =
        (buildLayers fuel remaining done).map (List.map (withPayloadPair f)) := by
  intro fuel
  induction fuel with
  | zero => intro remaining done; rfl
  | succ n ih =>
    intro remaining done
    simp only [buildLayers]
    rw [filter_payload f (isReady done) (fun _ => rfl) remaining]
    cases hfil : remaining.filter (isReady done) with
    | nil => rfl
    | cons a t =>
      simp only [List.map_cons, List.isEmpty_cons, if_false, Bool.false_eq_true]
      simp only [show (withPayloadPair f a).1 = a.1 from rfl, keys_payload f t]
      rw [filter_payload f
        (fun nd => !decide (nd.1 ∈ a.1 :: t.map Prod.fst)) (fun _ => rfl) remaining]
      rw [ih]

theorem mkOperation_payload (f : FunctionDefinition → Nat)
    (layer : List (String × FunctionDefinition)) :
    mkOperation (layer.map (withPayloadPair f)) = mkOperation layer := by
  match layer with
  | [] => rfl
  | [nd] => rfl
  | a :: b :: t =>
    show Operation.parallel _ = Operation.parallel _
    rw [List.map_map]
    rfl

/-- C7: `build_execution_plan` is a pure function of the definitions' declared
identity and dependencies — replacing the opaque payload (callable, arguments,
fabric, packaging metadata, version id) of every input definition yields a
structurally identical plan.  Determinism and non-mutation of the input are
inherent to the functional model. -/
theorem build_execution_plan_payload_independent (ds : List FunctionDefinition)
    (f : FunctionDefinition → Nat) :
    build_execution_plan (ds.map (withPayload f)) = build_execution_plan ds := by
  have hnodes : (_build_graph (ds.map (withPayload f))).nodes =
      ((_build_graph ds).nodes).map (withPayloadPair f) := by
    simp only [_build_graph, List.map_map]
    rfl
  simp only [build_execution_plan, hnodes, List.length_map, buildLayers_payload,
    List.map_map]
  exact congrArg ExecutionPlan.mk
    (List.map_congr_left fun layer _ => mkOperation_payload f layer)

end Layer
